import Mathlib

/-!
Shallow embedding of the logarithmic grid strategy
(source file: aster_log_grid_strategy.py).

Decimal values are modelled as exact rationals (ℚ).  The source performs its
arithmetic with Python's decimal module at the default 28-significant-digit
context; all operations appearing below (comparisons, quantize, sums,
products with small integer powers) are modelled exactly over ℚ, while the
single transcendental operation — the fractional Decimal power
(upper/lower) ** (1/num_grids) at line 212 of the source — is outside a
rational embedding and is therefore passed in as an argument: the argument
stands for the concrete 28-digit decimal value the source computes.  For the
worked example of the specification that value is recorded below as ratio0.
-/

/-- Source line 30: PRICE_PRECISION = Decimal('0.0001'). -/
def PRICE_PRECISION : ℚ := 1 / 10000

/-- Source line 32: QUANTITY_PRECISION = Decimal('1'). -/
def QUANTITY_PRECISION : ℚ := 1

/-- Truncation of a rational toward zero, the integer Decimal ROUND_DOWN
picks (floor for non-negative values, ceiling for negative ones). -/
def truncInt (x : ℚ) : ℤ := if 0 ≤ x then ⌊x⌋ else ⌈x⌉

/-- Decimal.quantize with rounding=ROUND_DOWN to the quantum q
(source lines 136-137 and 223): round x toward zero to a multiple of q. -/
def quantizeDown (q x : ℚ) : ℚ := truncInt (x / q) * q

/-- Decimal.quantize with the default context rounding ROUND_HALF_EVEN
(source lines 310, 324, 340): round x to the nearest multiple of q,
ties to the even multiple. -/
def quantizeHE (q x : ℚ) : ℚ :=
  let n : ℤ := ⌊x / q⌋
  let r : ℚ := x / q - n
  (if r < 1 / 2 then n else if 1 / 2 < r then n + 1
   else if Even n then n else n + 1 : ℤ) * q

/-- Source lines 232-235: the body of the uniqueness loop.  prev is the
previous element of the sorted list (temp_sorted[i-1]); an element is kept
exactly when its absolute difference from prev exceeds the tolerance. -/
def dedupGo (tol : ℚ) : ℚ → List ℚ → List ℚ
  | _, [] => []
  | prev, b :: rest =>
    if tol < |b - prev| then b :: dedupGo tol b rest else dedupGo tol b rest

/-- Source lines 227-235: keep the head of the descending-sorted list, then
walk it dropping every element within the tolerance of its predecessor. -/
def dedupTol (tol : ℚ) : List ℚ → List ℚ
  | [] => []
  | a :: rest => a :: dedupGo tol a rest

/-- Modelled from the spec (section 4.1, "drop any level whose absolute
difference from the previous *kept* level is ≤ priceQuantum / 2"): the
anchor of the comparison is the most recently kept element, not the
previous element.  Stated only to be compared with dedupGo. -/
def dedupSpecGo (tol : ℚ) : ℚ → List ℚ → List ℚ
  | _, [] => []
  | kept, b :: rest =>
    if tol < |b - kept| then b :: dedupSpecGo tol b rest
    else dedupSpecGo tol kept rest

/-- Modelled from the spec: deduplication anchored at the previous kept
level.  Stated only to be compared with dedupTol. -/
def dedupKeptSpec (tol : ℚ) : List ℚ → List ℚ
  | [] => []
  | a :: rest => a :: dedupSpecGo tol a rest

/-- Source line 215: levels = [lower * ratio**i for i in range(num_grids+1)].
The rounded decimal power result is the argument named r here. -/
def raw_levels (lower r : ℚ) (num_grids : ℕ) : List ℚ :=
  (List.range (num_grids + 1)).map fun i => lower * r ^ i

/-- Source lines 195-242: calculate_grid_levels.  Validation returns [] for
an invalid range (lines 200-206); levels are generated from the computed
ratio (line 215, with the decimal power passed in as the argument named
ratio), quantized down to PRICE_PRECISION (line 223), sorted descending
(line 229; Python's sorted is modelled by insertion sort, which produces the
same descending list), and deduplicated with tolerance PRICE_PRECISION / 2
(lines 227-235). -/
def calculate_grid_levels (upper_price lower_price : ℚ) (num_grids : ℤ)
    (ratio : ℚ) : List ℚ :=
  if upper_price ≤ lower_price ∨ num_grids < 1 then []
  else if lower_price ≤ 0 then []
  else
    let levels := raw_levels lower_price ratio num_grids.toNat
    let formatted_levels := levels.map (quantizeDown PRICE_PRECISION)
    let temp_sorted := List.insertionSort (· ≥ ·) formatted_levels
    dedupTol (PRICE_PRECISION / 2) temp_sorted

/-- The value the source's Decimal power computes at line 212 for
upper=0.70, lower=0.60, num_grids=10: the 28-significant-digit decimal
(Decimal('0.7')/Decimal('0.6')) ** (Decimal(1)/Decimal(10))
= 1.015534493002352455906156671, reproduced here as an exact rational. -/
def ratio0 : ℚ := 1015534493002352455906156671 / 1000000000000000000000000000

/-- One exchange-reported open order (spec section 3, source lines 306-313).
price is none when the reported price string cannot be parsed as a Decimal
(decimal.InvalidOperation) or the field is missing (KeyError). -/
structure OpenOrder where
  orderId : ℕ
  side : String
  price : Option ℚ
  origQty : ℚ
  status : String
deriving DecidableEq

/-- The partition of one tick's open orders: the two sets of quantized
prices built at source lines 302-313, together with the orderIds of the
orders skipped with a warning (line 313). -/
structure OpenOrderPrices where
  buy : Finset ℚ
  sell : Finset ℚ
  warnings : List ℕ
deriving DecidableEq

/-- Source lines 307-313: one iteration of the partition loop.  A missing or
unparsable price raises inside the try and the order is skipped with a
warning; an order whose side is neither BUY nor SELL raises KeyError on the
dict lookup at line 311 and is likewise skipped with a warning. -/
def partitionStep (st : OpenOrderPrices) (o : OpenOrder) : OpenOrderPrices :=
  match o.price with
  | none => { st with warnings := st.warnings ++ [o.orderId] }
  | some p =>
    let pq := quantizeHE PRICE_PRECISION p
    if o.side = "BUY" then { st with buy := insert pq st.buy }
    else if o.side = "SELL" then { st with sell := insert pq st.sell }
    else { st with warnings := st.warnings ++ [o.orderId] }

/-- Source lines 302-313: partition the open-order snapshot by side into two
sets of quantized prices. -/
def partitionOpenOrders (orders : List OpenOrder) : OpenOrderPrices :=
  orders.foldl partitionStep ⟨∅, ∅, []⟩

/-- Source lines 319-350: the grid maintenance loop over grid_levels.  A
level strictly below the current price at which no open BUY order rests at
the quantized price emits a BUY placement; a level strictly above with no
open SELL order at the quantized price emits a SELL placement; a level
equal to the current price emits nothing.  The emitted price is the
quantized level (lines 324, 340). -/
def reconcile (current_price : ℚ) (grid_levels : List ℚ)
    (buys sells : Finset ℚ) : List (ℚ × String) :=
  grid_levels.filterMap fun level_price =>
    if level_price < current_price then
      let level_quantized := quantizeHE PRICE_PRECISION level_price
      if level_quantized ∈ buys then none else some (level_quantized, "BUY")
    else if current_price < level_price then
      let level_quantized := quantizeHE PRICE_PRECISION level_price
      if level_quantized ∈ sells then none else some (level_quantized, "SELL")
    else none

/-- Source lines 301-350 composed: one tick's reconciliation from the raw
open-order snapshot. -/
def reconcileOrders (current_price : ℚ) (grid_levels : List ℚ)
    (orders : List OpenOrder) : List (ℚ × String) :=
  let st := partitionOpenOrders orders
  reconcile current_price grid_levels st.buy st.sell

/-- The params dict built by place_limit_order (source lines 149-156). -/
structure OrderIntent where
  symbol : String
  side : String
  orderType : String
  quantity : ℚ
  price : ℚ
  timeInForce : String
deriving DecidableEq

/-- Python's str.upper() applied characterwise (the sides used by the
strategy are ASCII strings, where Char.toUpper agrees with Python). -/
def strUpper (s : String) : String := ⟨s.data.map Char.toUpper⟩

/-- Source lines 131-159: place_limit_order formats price and quantity by
quantizing down to the instrument precisions (lines 136-137) and always
builds the order params; the minimum-quantity and minimum-notional checks
at lines 139-147 are commented out in the source, so no below-minimum
failure path exists and the intent is produced unconditionally. -/
def place_limit_order (symbol side : String) (quantity price : ℚ) :
    OrderIntent :=
  let formatted_price := quantizeDown PRICE_PRECISION price
  let formatted_quantity := quantizeDown QUANTITY_PRECISION quantity
  { symbol := symbol
    side := strUpper side
    orderType := "LIMIT"
    quantity := formatted_quantity
    price := formatted_price
    timeInForce := "GTC" }

/-- x is an integer multiple of the quantum q (an exactly quantized price). -/
def IsTickMultiple (q x : ℚ) : Prop := ∃ k : ℤ, x = k * q

lemma truncInt_of_nonneg {x : ℚ} (hx : 0 ≤ x) : truncInt x = ⌊x⌋ := by
  simp [truncInt, hx]

lemma truncInt_intCast (k : ℤ) : truncInt (k : ℚ) = k := by
  rcases le_or_lt 0 (k : ℚ) with h | h
  · rw [truncInt_of_nonneg h, Int.floor_intCast]
  · simp [truncInt, not_le.mpr h, Int.ceil_intCast]

lemma quantizeDown_isTickMultiple (q x : ℚ) :
    IsTickMultiple q (quantizeDown q x) :=
  ⟨truncInt (x / q), rfl⟩

lemma quantizeDown_eq_floor {q x : ℚ} (hx : 0 ≤ x) (hq : 0 < q) :
    quantizeDown q x = (⌊x / q⌋ : ℚ) * q := by
  rw [quantizeDown, truncInt_of_nonneg (div_nonneg hx hq.le)]

lemma quantizeDown_nonneg {q x : ℚ} (hx : 0 ≤ x) (hq : 0 < q) :
    0 ≤ quantizeDown q x := by
  rw [quantizeDown_eq_floor hx hq]
  have : (0 : ℤ) ≤ ⌊x / q⌋ := Int.floor_nonneg.mpr (div_nonneg hx hq.le)
  positivity

lemma quantizeDown_le {q x : ℚ} (hx : 0 ≤ x) (hq : 0 < q) :
    quantizeDown q x ≤ x := by
  rw [quantizeDown_eq_floor hx hq]
  calc (⌊x / q⌋ : ℚ) * q ≤ (x / q) * q :=
        mul_le_mul_of_nonneg_right (Int.floor_le _) hq.le
    _ = x := div_mul_cancel₀ x hq.ne.symm

lemma quantizeDown_mono {q x y : ℚ} (hx : 0 ≤ x) (hxy : x ≤ y) (hq : 0 < q) :
    quantizeDown q x ≤ quantizeDown q y := by
  rw [quantizeDown_eq_floor hx hq, quantizeDown_eq_floor (hx.trans hxy) hq]
  have : (⌊x / q⌋ : ℤ) ≤ ⌊y / q⌋ :=
    Int.floor_le_floor (by gcongr)
  exact mul_le_mul_of_nonneg_right (by exact_mod_cast this) hq.le

lemma quantizeDown_int_mul {q : ℚ} (hq : 0 < q) (k : ℤ) :
    quantizeDown q ((k : ℚ) * q) = (k : ℚ) * q := by
  rw [quantizeDown, mul_div_cancel_right₀ _ hq.ne.symm, truncInt_intCast]

lemma quantizeHE_int_mul {q : ℚ} (hq : 0 < q) (k : ℤ) :
    quantizeHE q ((k : ℚ) * q) = (k : ℚ) * q := by
  have h : ((k : ℚ) * q) / q = (k : ℚ) := mul_div_cancel_right₀ _ hq.ne.symm
  simp [quantizeHE, h]

lemma quantizeHE_of_isTickMultiple {q x : ℚ} (hq : 0 < q)
    (hx : IsTickMultiple q x) : quantizeHE q x = x := by
  obtain ⟨k, rfl⟩ := hx
  exact quantizeHE_int_mul hq k

/-- Two multiples of q within a half-quantum of each other are equal. -/
lemma tick_eq_of_close {q a b : ℚ} (hq : 0 < q) (ha : IsTickMultiple q a)
    (hb : IsTickMultiple q b) (h : |a - b| ≤ q / 2) : a = b := by
  obtain ⟨ka, rfl⟩ := ha
  obtain ⟨kb, rfl⟩ := hb
  have key : |((ka - kb : ℤ) : ℚ)| * q ≤ q / 2 := by
    have h1 : ((ka - kb : ℤ) : ℚ) * q = (ka : ℚ) * q - (kb : ℚ) * q := by
      push_cast; ring
    calc |((ka - kb : ℤ) : ℚ)| * q = |((ka - kb : ℤ) : ℚ) * q| := by
          rw [abs_mul, abs_of_pos hq]
      _ = |(ka : ℚ) * q - (kb : ℚ) * q| := by rw [h1]
      _ ≤ q / 2 := h
  have hlt : |((ka - kb : ℤ) : ℚ)| < 1 := by
    by_contra hcon
    push_neg at hcon
    have : 1 * q ≤ |((ka - kb : ℤ) : ℚ)| * q :=
      mul_le_mul_of_nonneg_right hcon hq.le
    linarith
  have hlt2 : |ka - kb| < 1 := by
    rw [← Int.cast_abs] at hlt
    exact_mod_cast hlt
  have hz : ka - kb = 0 :=
    abs_eq_zero.mp (le_antisymm (by omega) (abs_nonneg _))
  have : ka = kb := by omega
  rw [this]

/-- Two multiples of q separated by more than a half-quantum are separated
by at least a full quantum. -/
lemma tick_ge_of_gap {q a b : ℚ} (hq : 0 < q) (ha : IsTickMultiple q a)
    (hb : IsTickMultiple q b) (h : q / 2 < a - b) : b + q ≤ a := by
  obtain ⟨ka, rfl⟩ := ha
  obtain ⟨kb, rfl⟩ := hb
  have hd : (1 : ℚ) / 2 * q < ((ka - kb : ℤ) : ℚ) * q := by
    push_cast
    calc (1 : ℚ) / 2 * q = q / 2 := by ring
      _ < (ka : ℚ) * q - (kb : ℚ) * q := h
      _ = ((ka : ℚ) - kb) * q := by ring
  have h2 : (1 : ℚ) / 2 < ((ka - kb : ℤ) : ℚ) :=
    lt_of_mul_lt_mul_right hd hq.le
  have h3 : (1 : ℤ) ≤ ka - kb := by
    by_contra hcon
    push_neg at hcon
    have : ((ka - kb : ℤ) : ℚ) ≤ 0 := by
      have : ka - kb ≤ 0 := by omega
      exact_mod_cast this
    linarith
  have h4 : ((kb : ℚ) + 1) * q ≤ (ka : ℚ) * q := by
    apply mul_le_mul_of_nonneg_right _ hq.le
    have h5 : ((kb + 1 : ℤ) : ℚ) ≤ ((ka : ℤ) : ℚ) := by exact_mod_cast by omega
    push_cast at h5
    exact h5
  linarith

/-- The uniqueness walk only ever keeps elements of its input. -/
lemma dedupGo_sublist (tol : ℚ) : ∀ (l : List ℚ) (prev : ℚ),
    (dedupGo tol prev l).Sublist l := by
  intro l
  induction l with
  | nil => intro prev; simp [dedupGo]
  | cons b rest ih =>
    intro prev
    rw [dedupGo]
    by_cases h : tol < |b - prev|
    · rw [if_pos h]
      exact (ih b).cons₂ b
    · rw [if_neg h]
      exact (ih b).cons b

lemma dedupTol_sublist (tol : ℚ) (l : List ℚ) :
    (dedupTol tol l).Sublist l := by
  cases l with
  | nil => simp [dedupTol]
  | cons a rest =>
    rw [dedupTol]
    exact (dedupGo_sublist tol rest a).cons₂ a

lemma dedupTol_head? (tol : ℚ) (l : List ℚ) :
    (dedupTol tol l).head? = l.head? := by
  cases l <;> simp [dedupTol]

/-- On a descending input, any element the walk keeps after position prev is
separated from every upper bound k of prev by more than the tolerance. -/
lemma dedupGo_chain (tol : ℚ) : ∀ (l : List ℚ) (prev k : ℚ),
    List.Chain' (· ≥ ·) (prev :: l) → prev ≤ k →
    List.Chain' (fun a b => tol < a - b) (k :: dedupGo tol prev l) := by
  intro l
  induction l with
  | nil => intro prev k _ _; simp [dedupGo]
  | cons b rest ih =>
    intro prev k hchain hpk
    have hpb : b ≤ prev := (List.chain'_cons.mp hchain).1
    have hrest : List.Chain' (· ≥ ·) (b :: rest) := (List.chain'_cons.mp hchain).2
    rw [dedupGo]
    by_cases h : tol < |b - prev|
    · rw [if_pos h]
      rw [List.chain'_cons]
      constructor
      · have : |b - prev| = prev - b := by
          rw [abs_sub_comm, abs_of_nonneg (by linarith)]
        linarith [this ▸ h]
      · exact ih b b hrest le_rfl
    · rw [if_neg h]
      exact ih b k hrest (hpb.trans hpk)

lemma dedupTol_chain (tol : ℚ) (l : List ℚ) (hs : List.Chain' (· ≥ ·) l) :
    List.Chain' (fun a b => tol < a - b) (dedupTol tol l) := by
  cases l with
  | nil => simp [dedupTol]
  | cons a rest => exact dedupGo_chain tol rest a a hs le_rfl

/-- On a list of multiples of q, with tolerance q/2, an element is dropped
exactly when it equals its predecessor, so the walk's last value is the
input's last value. -/
lemma dedupGo_getLast? {q : ℚ} (hq : 0 < q) : ∀ (l : List ℚ) (prev : ℚ),
    (∀ x ∈ prev :: l, IsTickMultiple q x) →
    (prev :: dedupGo (q / 2) prev l).getLast? = (prev :: l).getLast? := by
  intro l
  induction l with
  | nil => intro prev _; simp [dedupGo]
  | cons b rest ih =>
    intro prev hm
    have hmb : ∀ x ∈ b :: rest, IsTickMultiple q x := by
      intro x hx
      exact hm x (List.mem_cons_of_mem prev hx)
    rw [dedupGo]
    by_cases h : q / 2 < |b - prev|
    · rw [if_pos h]
      rw [List.getLast?_cons_cons, List.getLast?_cons_cons]
      exact ih b hmb
    · rw [if_neg h]
      have hbp : b = prev := by
        apply tick_eq_of_close hq (hmb b (List.mem_cons_self b rest))
          (hm prev (List.mem_cons_self prev _))
        linarith [not_lt.mp h]
      rw [List.getLast?_cons_cons, hbp]
      exact ih prev (by rw [← hbp]; exact hmb)

lemma dedupTol_getLast? {q : ℚ} (hq : 0 < q) (l : List ℚ)
    (hm : ∀ x ∈ l, IsTickMultiple q x) :
    (dedupTol (q / 2) l).getLast? = l.getLast? := by
  cases l with
  | nil => simp [dedupTol]
  | cons a rest => exact dedupGo_getLast? hq rest a hm

/-- On a list of multiples of q, with tolerance q/2, the predecessor-based
walk of the source agrees with the kept-anchor walk of the specification. -/
lemma dedupGo_eq_specGo {q : ℚ} (hq : 0 < q) : ∀ (l : List ℚ) (prev : ℚ),
    (∀ x ∈ prev :: l, IsTickMultiple q x) →
    dedupGo (q / 2) prev l = dedupSpecGo (q / 2) prev l := by
  intro l
  induction l with
  | nil => intro prev _; simp [dedupGo, dedupSpecGo]
  | cons b rest ih =>
    intro prev hm
    have hmb : ∀ x ∈ b :: rest, IsTickMultiple q x := by
      intro x hx
      exact hm x (List.mem_cons_of_mem prev hx)
    rw [dedupGo, dedupSpecGo]
    by_cases h : q / 2 < |b - prev|
    · rw [if_pos h, if_pos h, ih b hmb]
    · rw [if_neg h, if_neg h]
      have hbp : b = prev := by
        apply tick_eq_of_close hq (hmb b (List.mem_cons_self b rest))
          (hm prev (List.mem_cons_self prev _))
        linarith [not_lt.mp h]
      rw [show dedupGo (q / 2) b rest = dedupSpecGo (q / 2) b rest from
        ih b hmb, hbp]

lemma dedupTol_eq_keptSpec {q : ℚ} (hq : 0 < q) (l : List ℚ)
    (hm : ∀ x ∈ l, IsTickMultiple q x) :
    dedupTol (q / 2) l = dedupKeptSpec (q / 2) l := by
  cases l with
  | nil => simp [dedupTol, dedupKeptSpec]
  | cons a rest =>
    rw [dedupTol, dedupKeptSpec, dedupGo_eq_specGo hq rest a hm]

lemma sorted_chain_ge {l : List ℚ} (hs : l.Sorted (· ≥ ·)) :
    List.Chain' (· ≥ ·) l :=
  List.chain'_iff_pairwise.mpr hs

/-- The head of a descending-sorted list is any element that bounds the
list from above. -/
lemma head?_eq_of_sorted_max {l : List ℚ} (hs : l.Sorted (· ≥ ·)) {M : ℚ}
    (hM : M ∈ l) (hmax : ∀ x ∈ l, x ≤ M) : l.head? = some M := by
  cases l with
  | nil => cases hM
  | cons a t =>
    have ha : a ≤ M := hmax a (List.mem_cons_self a t)
    have hMa : M ≤ a := by
      rcases List.mem_cons.mp hM with h | h
      · rw [h]
      · exact List.rel_of_sorted_cons hs M h
    rw [List.head?_cons, le_antisymm hMa ha]

/-- The last element of a descending-sorted list is any element that bounds
the list from below. -/
lemma getLast?_eq_of_sorted_min : ∀ {l : List ℚ}, l.Sorted (· ≥ ·) →
    ∀ {m : ℚ}, m ∈ l → (∀ x ∈ l, m ≤ x) → l.getLast? = some m := by
  intro l
  induction l with
  | nil => intro _ m hm; cases hm
  | cons a t ih =>
    intro hs m hm hmin
    cases t with
    | nil =>
      rcases List.mem_cons.mp hm with h | h
      · rw [List.getLast?_singleton, h]
      · cases h
    | cons b t2 =>
      rw [List.getLast?_cons_cons]
      have hmem : m ∈ b :: t2 := by
        rcases List.mem_cons.mp hm with h | h
        · have hab : a ≥ b := List.rel_of_sorted_cons hs b (List.mem_cons_self b t2)
          have hmb : m ≤ b := hmin b (List.mem_cons_of_mem a (List.mem_cons_self b t2))
          have : b = m := le_antisymm (by rw [h]; exact hab) hmb
          rw [← this]
          exact List.mem_cons_self b t2
        · exact h
      exact ih hs.of_cons hmem
        (fun x hx => hmin x (List.mem_cons_of_mem a hx))

lemma raw_levels_length (lower r : ℚ) (n : ℕ) :
    (raw_levels lower r n).length = n + 1 := by
  simp [raw_levels]

lemma raw_levels_getElem? (lower r : ℚ) {n i : ℕ} (h : i < n + 1) :
    (raw_levels lower r n)[i]? = some (lower * r ^ i) := by
  simp [raw_levels, List.getElem?_map, List.getElem?_range, h]

lemma mem_raw_levels {lower r x : ℚ} {n : ℕ} :
    x ∈ raw_levels lower r n ↔ ∃ i ≤ n, x = lower * r ^ i := by
  simp only [raw_levels, List.mem_map, List.mem_range, Nat.lt_succ_iff]
  constructor
  · rintro ⟨i, hi, rfl⟩; exact ⟨i, hi, rfl⟩
  · rintro ⟨i, hi, rfl⟩; exact ⟨i, hi, rfl⟩

lemma lower_mem_raw_levels (lower r : ℚ) (n : ℕ) :
    lower ∈ raw_levels lower r n :=
  mem_raw_levels.mpr ⟨0, Nat.zero_le n, by simp⟩

lemma top_mem_raw_levels (lower r : ℚ) (n : ℕ) :
    lower * r ^ n ∈ raw_levels lower r n :=
  mem_raw_levels.mpr ⟨n, le_rfl, rfl⟩

lemma raw_levels_pos {lower r : ℚ} (hl : 0 < lower) (hr : 0 < r) {x : ℚ}
    {n : ℕ} (hx : x ∈ raw_levels lower r n) : 0 < x := by
  obtain ⟨i, _, rfl⟩ := mem_raw_levels.mp hx
  positivity

lemma raw_levels_le_top {lower r : ℚ} (hl : 0 < lower) (hr : 1 ≤ r) {x : ℚ}
    {n : ℕ} (hx : x ∈ raw_levels lower r n) : x ≤ lower * r ^ n := by
  obtain ⟨i, hi, rfl⟩ := mem_raw_levels.mp hx
  exact mul_le_mul_of_nonneg_left (pow_le_pow_right₀ hr hi) hl.le

lemma lower_le_raw_levels {lower r : ℚ} (hl : 0 < lower) (hr : 1 ≤ r) {x : ℚ}
    {n : ℕ} (hx : x ∈ raw_levels lower r n) : lower ≤ x := by
  obtain ⟨i, _, rfl⟩ := mem_raw_levels.mp hx
  nlinarith [one_le_pow₀ hr (n := i)]

lemma PRICE_PRECISION_pos : 0 < PRICE_PRECISION := by norm_num [PRICE_PRECISION]

lemma dedupTol_ne_nil {tol : ℚ} {l : List ℚ} (h : l ≠ []) :
    dedupTol tol l ≠ [] := by
  cases l with
  | nil => exact absurd rfl h
  | cons a t => simp [dedupTol]

/-- In the valid-parameter case the function is the quantize-sort-dedup
pipeline over the raw geometric levels. -/
lemma calculate_grid_levels_valid {upper lower : ℚ} {n : ℤ} (r : ℚ)
    (h1 : lower < upper) (h2 : 1 ≤ n) (h3 : 0 < lower) :
    calculate_grid_levels upper lower n r =
      dedupTol (PRICE_PRECISION / 2)
        (List.insertionSort (· ≥ ·)
          ((raw_levels lower r n.toNat).map (quantizeDown PRICE_PRECISION))) := by
  rw [calculate_grid_levels,
    if_neg (by push_neg; exact ⟨h1, by omega⟩),
    if_neg (not_le.mpr h3)]

lemma temp_sorted_length (lower r : ℚ) (m : ℕ) :
    (List.insertionSort (· ≥ ·)
      ((raw_levels lower r m).map (quantizeDown PRICE_PRECISION))).length
      = m + 1 := by
  rw [(List.perm_insertionSort _ _).length_eq, List.length_map,
    raw_levels_length]

lemma mem_temp_sorted {lower r x : ℚ} {m : ℕ} :
    x ∈ List.insertionSort (· ≥ ·)
        ((raw_levels lower r m).map (quantizeDown PRICE_PRECISION)) ↔
      ∃ y ∈ raw_levels lower r m, x = quantizeDown PRICE_PRECISION y := by
  rw [(List.perm_insertionSort _ _).mem_iff, List.mem_map]
  constructor
  · rintro ⟨y, hy, rfl⟩; exact ⟨y, hy, rfl⟩
  · rintro ⟨y, hy, rfl⟩; exact ⟨y, hy, rfl⟩

lemma temp_sorted_sorted (lower r : ℚ) (m : ℕ) :
    (List.insertionSort (· ≥ ·)
      ((raw_levels lower r m).map (quantizeDown PRICE_PRECISION))).Sorted
        (· ≥ ·) :=
  List.sorted_insertionSort _ _

lemma temp_sorted_multiples {lower r : ℚ} {m : ℕ} :
    ∀ x ∈ List.insertionSort (· ≥ ·)
        ((raw_levels lower r m).map (quantizeDown PRICE_PRECISION)),
      IsTickMultiple PRICE_PRECISION x := by
  intro x hx
  obtain ⟨y, _, rfl⟩ := mem_temp_sorted.mp hx
  exact quantizeDown_isTickMultiple _ _

lemma partitionStep_proj {s t : OpenOrderPrices} (o : OpenOrder)
    (hb : s.buy = t.buy) (hs : s.sell = t.sell) :
    (partitionStep s o).buy = (partitionStep t o).buy ∧
    (partitionStep s o).sell = (partitionStep t o).sell := by
  cases hp : o.price with
  | none => simp [partitionStep, hp, hb, hs]
  | some p =>
    simp only [partitionStep, hp]
    split_ifs <;> simp [hb, hs]

lemma partitionFold_proj : ∀ (orders : List OpenOrder)
    (s t : OpenOrderPrices), s.buy = t.buy → s.sell = t.sell →
    (orders.foldl partitionStep s).buy = (orders.foldl partitionStep t).buy ∧
    (orders.foldl partitionStep s).sell =
      (orders.foldl partitionStep t).sell := by
  intro orders
  induction orders with
  | nil => intro s t hb hs; exact ⟨hb, hs⟩
  | cons o rest ih =>
    intro s t hb hs
    rw [List.foldl_cons, List.foldl_cons]
    obtain ⟨hb2, hs2⟩ := partitionStep_proj o hb hs
    exact ih _ _ hb2 hs2

lemma partitionStep_warnings (s : OpenOrderPrices) (o : OpenOrder) :
    ∃ w, (partitionStep s o).warnings = s.warnings ++ w := by
  cases hp : o.price with
  | none => exact ⟨[o.orderId], by simp [partitionStep, hp]⟩
  | some p =>
    simp only [partitionStep, hp]
    split_ifs
    · exact ⟨[], by simp⟩
    · exact ⟨[], by simp⟩
    · exact ⟨[o.orderId], by simp⟩

lemma partitionFold_warnings : ∀ (orders : List OpenOrder)
    (s : OpenOrderPrices), ∃ w,
    (orders.foldl partitionStep s).warnings = s.warnings ++ w := by
  intro orders
  induction orders with
  | nil => intro s; exact ⟨[], by simp⟩
  | cons o rest ih =>
    intro s
    rw [List.foldl_cons]
    obtain ⟨w1, hw1⟩ := partitionStep_warnings s o
    obtain ⟨w2, hw2⟩ := ih (partitionStep s o)
    exact ⟨w1 ++ w2, by rw [hw2, hw1, List.append_assoc]⟩

/-- Membership characterization of the BUY placements the loop emits. -/
lemma mem_reconcile_buy {p : ℚ} {levels : List ℚ} {buys sells : Finset ℚ}
    {x : ℚ} : (x, "BUY") ∈ reconcile p levels buys sells ↔
      ∃ a ∈ levels, a < p ∧ quantizeHE PRICE_PRECISION a = x ∧ x ∉ buys := by
  simp only [reconcile, List.mem_filterMap]
  constructor
  · rintro ⟨a, ha, hfa⟩
    by_cases h1 : a < p
    · rw [if_pos h1] at hfa
      by_cases h2 : quantizeHE PRICE_PRECISION a ∈ buys
      · simp [h2] at hfa
      · simp only [h2, if_false, Option.some.injEq, Prod.mk.injEq] at hfa
        exact ⟨a, ha, h1, hfa.1, hfa.1 ▸ h2⟩
    · rw [if_neg h1] at hfa
      by_cases h3 : p < a
      · rw [if_pos h3] at hfa
        by_cases h4 : quantizeHE PRICE_PRECISION a ∈ sells
        · simp [h4] at hfa
        · simp only [h4, if_false, Option.some.injEq, Prod.mk.injEq] at hfa
          exact absurd hfa.2 (by decide)
      · rw [if_neg h3] at hfa
        cases hfa
  · rintro ⟨a, ha, hlt, hq, hnot⟩
    refine ⟨a, ha, ?_⟩
    rw [if_pos hlt, hq, if_neg hnot]

/-- Membership characterization of the SELL placements the loop emits. -/
lemma mem_reconcile_sell {p : ℚ} {levels : List ℚ} {buys sells : Finset ℚ}
    {x : ℚ} : (x, "SELL") ∈ reconcile p levels buys sells ↔
      ∃ a ∈ levels, p < a ∧ quantizeHE PRICE_PRECISION a = x ∧ x ∉ sells := by
  simp only [reconcile, List.mem_filterMap]
  constructor
  · rintro ⟨a, ha, hfa⟩
    by_cases h1 : a < p
    · rw [if_pos h1] at hfa
      by_cases h2 : quantizeHE PRICE_PRECISION a ∈ buys
      · simp [h2] at hfa
      · simp only [h2, if_false, Option.some.injEq, Prod.mk.injEq] at hfa
        exact absurd hfa.2 (by decide)
    · rw [if_neg h1] at hfa
      by_cases h3 : p < a
      · rw [if_pos h3] at hfa
        by_cases h4 : quantizeHE PRICE_PRECISION a ∈ sells
        · simp [h4] at hfa
        · simp only [h4, if_false, Option.some.injEq, Prod.mk.injEq] at hfa
          exact ⟨a, ha, h3, hfa.1, hfa.1 ▸ h4⟩
      · rw [if_neg h3] at hfa
        cases hfa
  · rintro ⟨a, ha, hlt, hq, hnot⟩
    refine ⟨a, ha, ?_⟩
    rw [if_neg (by linarith), if_pos hlt, hq, if_neg hnot]

lemma chain'_imp_of_mem {α : Type} {R S : α → α → Prop} :
    ∀ {l : List α}, (∀ a ∈ l, ∀ b ∈ l, R a b → S a b) →
    List.Chain' R l → List.Chain' S l := by
  intro l
  induction l with
  | nil => intro _ _; simp
  | cons a t ih =>
    intro hmem hchain
    cases t with
    | nil => simp
    | cons b t2 =>
      rw [List.chain'_cons] at hchain ⊢
      refine ⟨hmem a (List.mem_cons_self a _) b
        (List.mem_cons_of_mem a (List.mem_cons_self b t2)) hchain.1, ?_⟩
      exact ih (fun x hx y hy => hmem x (List.mem_cons_of_mem a hx) y
        (List.mem_cons_of_mem a hy)) hchain.2

/-- C1: for every tick, for every grid level L, the reconciler emits a BUY
placement at L iff L < currentPrice and no open BUY order sits at the
quantized price L, a SELL placement at L iff L > currentPrice and no open
SELL order sits at the quantized price L, and nothing when L equals
currentPrice; with currentPrice=0.65, levels [0.60,0.62,0.65,0.68,0.70] and
no open orders, it emits exactly 0.60 BUY, 0.62 BUY, 0.68 SELL, 0.70 SELL. -/
theorem C1_reconcile_emits_iff :
    (∀ (p : ℚ) (levels : List ℚ) (buys sells : Finset ℚ),
      (∀ l ∈ levels, IsTickMultiple PRICE_PRECISION l) →
      ∀ L ∈ levels,
        (((L, "BUY") ∈ reconcile p levels buys sells) ↔ L < p ∧ L ∉ buys) ∧
        (((L, "SELL") ∈ reconcile p levels buys sells) ↔ p < L ∧ L ∉ sells) ∧
        (L = p → (L, "BUY") ∉ reconcile p levels buys sells ∧
          (L, "SELL") ∉ reconcile p levels buys sells)) ∧
    reconcile (65/100) [60/100, 62/100, 65/100, 68/100, 70/100] ∅ ∅ =
      [(60/100, "BUY"), (62/100, "BUY"), (68/100, "SELL"), (70/100, "SELL")] := by
  constructor
  · intro p levels buys sells hm L hL
    have hqL : quantizeHE PRICE_PRECISION L = L :=
      quantizeHE_of_isTickMultiple PRICE_PRECISION_pos (hm L hL)
    have hbuy : ((L, "BUY") ∈ reconcile p levels buys sells) ↔
        L < p ∧ L ∉ buys := by
      rw [mem_reconcile_buy]
      constructor
      · rintro ⟨a, ha, hlt, hqa, hnot⟩
        have : a = L := by
          rw [quantizeHE_of_isTickMultiple PRICE_PRECISION_pos (hm a ha)] at hqa
          exact hqa
        subst this
        exact ⟨hlt, hnot⟩
      · rintro ⟨hlt, hnot⟩
        exact ⟨L, hL, hlt, hqL, hnot⟩
    have hsell : ((L, "SELL") ∈ reconcile p levels buys sells) ↔
        p < L ∧ L ∉ sells := by
      rw [mem_reconcile_sell]
      constructor
      · rintro ⟨a, ha, hlt, hqa, hnot⟩
        have : a = L := by
          rw [quantizeHE_of_isTickMultiple PRICE_PRECISION_pos (hm a ha)] at hqa
          exact hqa
        subst this
        exact ⟨hlt, hnot⟩
      · rintro ⟨hlt, hnot⟩
        exact ⟨L, hL, hlt, hqL, hnot⟩
    refine ⟨hbuy, hsell, ?_⟩
    rintro rfl
    constructor
    · intro hmem
      exact absurd (hbuy.mp hmem).1 (lt_irrefl L)
    · intro hmem
      exact absurd (hsell.mp hmem).1 (lt_irrefl L)
  · norm_num [reconcile, quantizeHE, PRICE_PRECISION, List.filterMap]

theorem C1_witness :
    ((60/100 : ℚ), "BUY") ∈
      reconcile (65/100) [60/100, 62/100, 65/100, 68/100, 70/100] ∅ ∅ := by
  have hm : ∀ l ∈ [(60/100 : ℚ), 62/100, 65/100, 68/100, 70/100],
      IsTickMultiple PRICE_PRECISION l := by
    intro l hl
    simp only [List.mem_cons, List.not_mem_nil, or_false] at hl
    rcases hl with rfl | rfl | rfl | rfl | rfl
    exacts [⟨6000, by norm_num [PRICE_PRECISION]⟩,
      ⟨6200, by norm_num [PRICE_PRECISION]⟩,
      ⟨6500, by norm_num [PRICE_PRECISION]⟩,
      ⟨6800, by norm_num [PRICE_PRECISION]⟩,
      ⟨7000, by norm_num [PRICE_PRECISION]⟩]
  exact ((C1_reconcile_emits_iff.1 (65/100)
    [60/100, 62/100, 65/100, 68/100, 70/100] ∅ ∅ hm (60/100)
    (by norm_num)).1).mpr ⟨by norm_num, by simp⟩

/-- C3 counterexample: at quantity 0.3 with integer quantity quantum the
source does not fail — the minimum checks are commented out — and instead
emits the order intent with quantity quantized down to 0. -/
theorem C3_counterexample :
    place_limit_order "CRVUSDT" "BUY" (3/10) (65/100) =
      { symbol := "CRVUSDT", side := "BUY", orderType := "LIMIT",
        quantity := 0, price := 65/100, timeInForce := "GTC" } := by
  norm_num [place_limit_order, quantizeDown, truncInt, PRICE_PRECISION,
    QUANTITY_PRECISION]
  decide

/-- C3 amended: the order intent emitter quantizes quantity and price down
to their quanta and always produces an intent — there is no
BelowMinimumError path — so with quantity=0.3 and integer quantity quantum
it emits an intent whose quantity is 0. -/
theorem C3_amended_emitter_total :
    (∀ (symbol side : String) (quantity price : ℚ),
      (place_limit_order symbol side quantity price).quantity =
        quantizeDown QUANTITY_PRECISION quantity ∧
      (place_limit_order symbol side quantity price).price =
        quantizeDown PRICE_PRECISION price ∧
      (0 ≤ quantity →
        0 ≤ (place_limit_order symbol side quantity price).quantity ∧
        (place_limit_order symbol side quantity price).quantity ≤ quantity)) ∧
    (place_limit_order "CRVUSDT" "BUY" (3/10) (65/100)).quantity = 0 := by
  constructor
  · intro symbol side quantity price
    refine ⟨rfl, rfl, fun hq => ⟨?_, ?_⟩⟩
    · exact quantizeDown_nonneg hq (by norm_num [QUANTITY_PRECISION])
    · exact quantizeDown_le hq (by norm_num [QUANTITY_PRECISION])
  · norm_num [place_limit_order, quantizeDown, truncInt, QUANTITY_PRECISION]

theorem C3_amended_witness :
    (0 : ℚ) ≤ 3/10 ∧
    0 ≤ (place_limit_order "CRVUSDT" "BUY" (3/10) (65/100)).quantity ∧
    (place_limit_order "CRVUSDT" "BUY" (3/10) (65/100)).quantity ≤ 3/10 :=
  ⟨by norm_num,
    ((C3_amended_emitter_total.1 "CRVUSDT" "BUY" (3/10) (65/100)).2.2
      (by norm_num)).1,
    ((C3_amended_emitter_total.1 "CRVUSDT" "BUY" (3/10) (65/100)).2.2
      (by norm_num)).2⟩

/-- C4: calculate_grid_levels produces no levels exactly when
upperPrice ≤ lowerPrice, or numGrids < 1, or lowerPrice ≤ 0; every input
meeting the validity preconditions yields a non-empty level list. -/
theorem C4_invalid_range_iff :
    ∀ (upper lower : ℚ) (n : ℤ) (r : ℚ),
      calculate_grid_levels upper lower n r = [] ↔
        upper ≤ lower ∨ n < 1 ∨ lower ≤ 0 := by
  intro upper lower n r
  constructor
  · intro h
    by_contra hcon
    push_neg at hcon
    obtain ⟨h1, h2, h3⟩ := hcon
    rw [calculate_grid_levels_valid r h1 (by omega) h3] at h
    have hlen := temp_sorted_length lower r n.toNat
    exact dedupTol_ne_nil (fun hnil => by rw [hnil] at hlen; simp at hlen) h
  · intro h
    rw [calculate_grid_levels]
    by_cases hc : upper ≤ lower ∨ n < 1
    · rw [if_pos hc]
    · rw [if_neg hc, if_pos]
      rcases h with h | h | h
      · exact absurd (Or.inl h) hc
      · exact absurd (Or.inr h) hc
      · exact h

theorem C4_witness :
    calculate_grid_levels (6/10) (7/10) 10 1 = [] :=
  (C4_invalid_range_iff (6/10) (7/10) 10 1).mpr (Or.inl (by norm_num))

/-- C5: the pre-quantization levels are the closed geometric sequence
levels[i] = lower * r^i for i in 0..numGrids inclusive, so each adjacent
pair of raw levels is related by the identical ratio r. -/
theorem C5_raw_levels_geometric :
    ∀ (lower r : ℚ) (n : ℕ),
      (raw_levels lower r n).length = n + 1 ∧
      (∀ i, i ≤ n → (raw_levels lower r n)[i]? = some (lower * r ^ i)) ∧
      List.Chain' (fun a b => b = r * a) (raw_levels lower r n) := by
  intro lower r n
  refine ⟨raw_levels_length lower r n, ?_, ?_⟩
  · intro i hi
    exact raw_levels_getElem? lower r (by omega)
  · rw [raw_levels, List.chain'_map, List.chain'_range_succ]
    intro m _
    rw [pow_succ]
    ring

/-- C7: the reconciler is a pure deterministic function of its inputs: two
invocations with identical current price, levels and open-order snapshot
produce the identical list of pending placements. -/
theorem C7_reconcile_deterministic :
    ∀ (p₁ p₂ : ℚ) (levels₁ levels₂ : List ℚ)
      (orders₁ orders₂ : List OpenOrder),
      p₁ = p₂ → levels₁ = levels₂ → orders₁ = orders₂ →
      reconcileOrders p₁ levels₁ orders₁ = reconcileOrders p₂ levels₂ orders₂ := by
  rintro p _ levels _ orders _ rfl rfl rfl
  rfl

theorem C7_witness :
    reconcileOrders (65/100) [60/100] [] = reconcileOrders (65/100) [60/100] [] :=
  C7_reconcile_deterministic (65/100) (65/100) [60/100] [60/100] [] []
    rfl rfl rfl

set_option maxHeartbeats 2000000 in
/-- Concrete evaluation of the pipeline at the specification's example,
with the decimal power value the source computes (ratio0). -/
lemma grid_levels_example_eval :
    calculate_grid_levels (7/10) (6/10) 10 ratio0 =
      [6999/10000, 6892/10000, 6787/10000, 6683/10000, 6581/10000,
       6480/10000, 6381/10000, 6283/10000, 6187/10000, 6093/10000,
       6000/10000] := by
  norm_num [calculate_grid_levels, raw_levels, ratio0, quantizeDown, truncInt,
    PRICE_PRECISION, dedupTol, dedupGo, List.insertionSort, List.orderedInsert,
    List.range_succ, abs_of_nonneg]

/-- C2 counterexample: at upper=0.70, lower=0.60, numGrids=10 the first
returned level is 0.6999, not upperPrice quantized down (0.7000): the
decimal power rounds the ratio low, the top raw level
0.6999999999999999999999999978 truncates to 0.6999. -/
theorem C2_counterexample :
    (calculate_grid_levels (7/10) (6/10) 10 ratio0).head? =
      some (6999/10000) ∧
    (calculate_grid_levels (7/10) (6/10) 10 ratio0).head? ≠
      some (quantizeDown PRICE_PRECISION (7/10)) := by
  rw [grid_levels_example_eval]
  constructor
  · rfl
  · norm_num [quantizeDown, truncInt, PRICE_PRECISION]

/-- C2 amended: for valid inputs (and a computed ratio above 1, as the
decimal power of upper/lower > 1 always is), calculate_grid_levels returns
a strictly descending sequence of length at most numGrids+1 whose first
element is the quantized-down top computed level lower*ratio^numGrids —
which can sit one quantum below upperPrice quantized down, as in the
example — and whose last element is lowerPrice quantized down; the example
produces exactly 11 levels with first 0.6999 and last 0.6000. -/
theorem C2_amended_bounds :
    (∀ (upper lower r : ℚ) (n : ℤ), 0 < lower → lower < upper → 1 ≤ n →
      1 < r →
      (calculate_grid_levels upper lower n r).length ≤ n.toNat + 1 ∧
      List.Chain' (· > ·) (calculate_grid_levels upper lower n r) ∧
      (calculate_grid_levels upper lower n r).head? =
        some (quantizeDown PRICE_PRECISION (lower * r ^ n.toNat)) ∧
      (calculate_grid_levels upper lower n r).getLast? =
        some (quantizeDown PRICE_PRECISION lower)) ∧
    calculate_grid_levels (7/10) (6/10) 10 ratio0 =
      [6999/10000, 6892/10000, 6787/10000, 6683/10000, 6581/10000,
       6480/10000, 6381/10000, 6283/10000, 6187/10000, 6093/10000,
       6000/10000] := by
  constructor
  · intro upper lower r n h3 h1 h2 hr
    have hr0 : (0 : ℚ) < r := lt_trans zero_lt_one hr
    rw [calculate_grid_levels_valid r h1 h2 h3]
    refine ⟨?_, ?_, ?_, ?_⟩
    · calc (dedupTol (PRICE_PRECISION / 2) _).length
          ≤ _ := (dedupTol_sublist _ _).length_le
        _ = n.toNat + 1 := temp_sorted_length lower r n.toNat
    · have hch := dedupTol_chain (PRICE_PRECISION / 2) _
        (sorted_chain_ge (temp_sorted_sorted lower r n.toNat))
      exact hch.imp fun a b h => by
        have := PRICE_PRECISION_pos
        linarith
    · rw [dedupTol_head?]
      apply head?_eq_of_sorted_max (temp_sorted_sorted lower r n.toNat)
      · exact mem_temp_sorted.mpr ⟨_, top_mem_raw_levels lower r n.toNat, rfl⟩
      · intro x hx
        obtain ⟨y, hy, rfl⟩ := mem_temp_sorted.mp hx
        exact quantizeDown_mono (raw_levels_pos h3 hr0 hy).le
          (raw_levels_le_top h3 hr.le hy) PRICE_PRECISION_pos
    · rw [dedupTol_getLast? PRICE_PRECISION_pos _ temp_sorted_multiples]
      apply getLast?_eq_of_sorted_min (temp_sorted_sorted lower r n.toNat)
      · exact mem_temp_sorted.mpr ⟨_, lower_mem_raw_levels lower r n.toNat, rfl⟩
      · intro x hx
        obtain ⟨y, hy, rfl⟩ := mem_temp_sorted.mp hx
        exact quantizeDown_mono h3.le (lower_le_raw_levels h3 hr.le hy)
          PRICE_PRECISION_pos
  · exact grid_levels_example_eval

theorem C2_amended_witness :
    (calculate_grid_levels (7/10) (6/10) 10 ratio0).length ≤ 11 := by
  have h := (C2_amended_bounds.1 (7/10) (6/10) ratio0 10 (by norm_num)
    (by norm_num) (by norm_num) (by norm_num [ratio0])).1
  simpa using h

/-- C6: deduplication keeps levels whose consecutive distances exceed
priceQuantum/2, and on the quantized descending input it coincides with the
specification's walk anchored at the previous kept level. -/
theorem C6_dedup_half_quantum :
    ∀ (q : ℚ) (l : List ℚ), 0 < q →
      (∀ x ∈ l, IsTickMultiple q x) → List.Chain' (· ≥ ·) l →
      List.Chain' (fun a b => q / 2 < |a - b|) (dedupTol (q / 2) l) ∧
      dedupTol (q / 2) l = dedupKeptSpec (q / 2) l := by
  intro q l hq hm hs
  refine ⟨?_, dedupTol_eq_keptSpec hq l hm⟩
  exact (dedupTol_chain (q / 2) l hs).imp
    fun a b hab => lt_of_lt_of_le hab (le_abs_self _)

theorem C6_witness :
    List.Chain' (fun a b => (1/10000 : ℚ) / 2 < |a - b|)
        (dedupTol ((1/10000 : ℚ) / 2) [7/10, 7/10, 6/10]) ∧
      dedupTol ((1/10000 : ℚ) / 2) [7/10, 7/10, 6/10] =
        dedupKeptSpec ((1/10000 : ℚ) / 2) [7/10, 7/10, 6/10] := by
  apply C6_dedup_half_quantum (1/10000) [7/10, 7/10, 6/10] (by norm_num)
  · intro x hx
    simp only [List.mem_cons, List.not_mem_nil, or_false] at hx
    rcases hx with rfl | rfl | rfl
    exacts [⟨7000, by norm_num⟩, ⟨7000, by norm_num⟩, ⟨6000, by norm_num⟩]
  · refine List.chain'_cons.mpr ⟨le_refl _, List.chain'_cons.mpr
      ⟨by norm_num, ?_⟩⟩
    simp

/-- C8: an open order whose price cannot be parsed is skipped with a
warning and is not fatal: the partition of all remaining orders, and hence
the reconciliation of every level, is as if that order were absent, and its
orderId is recorded among the warnings. -/
theorem C8_unparsable_order_skipped :
    ∀ (p : ℚ) (levels : List ℚ) (pre post : List OpenOrder)
      (bad : OpenOrder), bad.price = none →
      reconcileOrders p levels (pre ++ bad :: post) =
        reconcileOrders p levels (pre ++ post) ∧
      (partitionOpenOrders (pre ++ bad :: post)).buy =
        (partitionOpenOrders (pre ++ post)).buy ∧
      (partitionOpenOrders (pre ++ bad :: post)).sell =
        (partitionOpenOrders (pre ++ post)).sell ∧
      bad.orderId ∈ (partitionOpenOrders (pre ++ bad :: post)).warnings := by
  intro p levels pre post bad hbad
  have hsplit1 : partitionOpenOrders (pre ++ bad :: post) =
      post.foldl partitionStep
        (partitionStep (pre.foldl partitionStep ⟨∅, ∅, []⟩) bad) := by
    rw [partitionOpenOrders, List.foldl_append, List.foldl_cons]
  have hsplit2 : partitionOpenOrders (pre ++ post) =
      post.foldl partitionStep (pre.foldl partitionStep ⟨∅, ∅, []⟩) := by
    rw [partitionOpenOrders, List.foldl_append]
  set s1 := pre.foldl partitionStep (⟨∅, ∅, []⟩ : OpenOrderPrices) with hs1
  have hstep : partitionStep s1 bad =
      { s1 with warnings := s1.warnings ++ [bad.orderId] } := by
    simp [partitionStep, hbad]
  have hproj := partitionFold_proj post (partitionStep s1 bad) s1
    (by rw [hstep]) (by rw [hstep])
  have hbuy : (partitionOpenOrders (pre ++ bad :: post)).buy =
      (partitionOpenOrders (pre ++ post)).buy := by
    rw [hsplit1, hsplit2]
    exact hproj.1
  have hsell : (partitionOpenOrders (pre ++ bad :: post)).sell =
      (partitionOpenOrders (pre ++ post)).sell := by
    rw [hsplit1, hsplit2]
    exact hproj.2
  refine ⟨?_, hbuy, hsell, ?_⟩
  · simp only [reconcileOrders]
    rw [hbuy, hsell]
  · rw [hsplit1]
    obtain ⟨w, hw⟩ := partitionFold_warnings post (partitionStep s1 bad)
    rw [hw, hstep]
    simp

theorem C8_witness :
    reconcileOrders (65/100) [60/100]
        [({ orderId := 1, side := "BUY", price := none, origQty := 1,
            status := "NEW" } : OpenOrder)] =
      reconcileOrders (65/100) [60/100] [] ∧
    (partitionOpenOrders
        [({ orderId := 1, side := "BUY", price := none, origQty := 1,
            status := "NEW" } : OpenOrder)]).buy =
      (partitionOpenOrders []).buy ∧
    (partitionOpenOrders
        [({ orderId := 1, side := "BUY", price := none, origQty := 1,
            status := "NEW" } : OpenOrder)]).sell =
      (partitionOpenOrders []).sell ∧
    1 ∈ (partitionOpenOrders
        [({ orderId := 1, side := "BUY", price := none, origQty := 1,
            status := "NEW" } : OpenOrder)]).warnings :=
  C8_unparsable_order_skipped (65/100) [60/100] [] []
    { orderId := 1, side := "BUY", price := none, origQty := 1,
      status := "NEW" } rfl

/-- C9: for valid configurations (with any positive computed ratio), the
returned list is non-empty; every level is a non-negative integer multiple
of the price quantum obtained by quantizing a raw level down (never past
it); and the list is strictly descending with consecutive gaps of at least
one full quantum. -/
theorem C9_grid_invariants :
    ∀ (upper lower r : ℚ) (n : ℤ), 0 < lower → lower < upper → 1 ≤ n →
      0 < r →
      calculate_grid_levels upper lower n r ≠ [] ∧
      (∀ x ∈ calculate_grid_levels upper lower n r,
        (∃ k : ℕ, x = (k : ℚ) * PRICE_PRECISION) ∧
        ∃ y ∈ raw_levels lower r n.toNat,
          x = quantizeDown PRICE_PRECISION y ∧ x ≤ y) ∧
      List.Chain' (fun a b => b + PRICE_PRECISION ≤ a)
        (calculate_grid_levels upper lower n r) := by
  intro upper lower r n h3 h1 h2 hr0
  rw [calculate_grid_levels_valid r h1 h2 h3]
  have hts_len := temp_sorted_length lower r n.toNat
  refine ⟨?_, ?_, ?_⟩
  · apply dedupTol_ne_nil
    intro hnil
    rw [hnil] at hts_len
    simp at hts_len
  · intro x hx
    have hxts := (dedupTol_sublist _ _).subset hx
    obtain ⟨y, hy, rfl⟩ := mem_temp_sorted.mp hxts
    have hy0 : 0 < y := raw_levels_pos h3 hr0 hy
    constructor
    · have hfl : (0 : ℤ) ≤ ⌊y / PRICE_PRECISION⌋ :=
        Int.floor_nonneg.mpr (div_nonneg hy0.le PRICE_PRECISION_pos.le)
      refine ⟨⌊y / PRICE_PRECISION⌋.toNat, ?_⟩
      rw [quantizeDown_eq_floor hy0.le PRICE_PRECISION_pos]
      congr 1
      exact_mod_cast (Int.toNat_of_nonneg hfl).symm
    · exact ⟨y, hy, rfl, quantizeDown_le hy0.le PRICE_PRECISION_pos⟩
  · have hch := dedupTol_chain (PRICE_PRECISION / 2) _
      (sorted_chain_ge (temp_sorted_sorted lower r n.toNat))
    apply chain'_imp_of_mem _ hch
    intro a ha b hb hab
    exact tick_ge_of_gap PRICE_PRECISION_pos
      (temp_sorted_multiples a ((dedupTol_sublist _ _).subset ha))
      (temp_sorted_multiples b ((dedupTol_sublist _ _).subset hb)) hab

theorem C9_witness :
    calculate_grid_levels (7/10) (6/10) 10 ratio0 ≠ [] :=
  (C9_grid_invariants (7/10) (6/10) ratio0 10 (by norm_num) (by norm_num)
    (by norm_num) (by norm_num [ratio0])).1

lemma partitionStep_proj2 {s t : OpenOrderPrices} {o₁ o₂ : OpenOrder}
    (hside : o₁.side = o₂.side) (hprice : o₁.price = o₂.price)
    (hb : s.buy = t.buy) (hs : s.sell = t.sell) :
    (partitionStep s o₁).buy = (partitionStep t o₂).buy ∧
    (partitionStep s o₁).sell = (partitionStep t o₂).sell := by
  cases hp : o₁.price with
  | none =>
    have hp2 : o₂.price = none := hprice ▸ hp
    simp [partitionStep, hp, hp2, hb, hs]
  | some v =>
    have hp2 : o₂.price = some v := hprice ▸ hp
    simp only [partitionStep, hp, hp2, hside]
    split_ifs <;> simp [hb, hs]

lemma partitionFold_proj_map {g : OpenOrder → OpenOrder}
    (hg : ∀ o, (g o).side = o.side ∧ (g o).price = o.price) :
    ∀ (orders : List OpenOrder) (s t : OpenOrderPrices),
      s.buy = t.buy → s.sell = t.sell →
      ((orders.map g).foldl partitionStep s).buy =
        (orders.foldl partitionStep t).buy ∧
      ((orders.map g).foldl partitionStep s).sell =
        (orders.foldl partitionStep t).sell := by
  intro orders
  induction orders with
  | nil => intro s t hb hs; exact ⟨hb, hs⟩
  | cons o rest ih =>
    intro s t hb hs
    rw [List.map_cons, List.foldl_cons, List.foldl_cons]
    exact ih _ _ (partitionStep_proj2 (hg o).1 (hg o).2 hb hs).1
      (partitionStep_proj2 (hg o).1 (hg o).2 hb hs).2

lemma partitionStep_idem_proj (s : OpenOrderPrices) (o : OpenOrder) :
    (partitionStep (partitionStep s o) o).buy = (partitionStep s o).buy ∧
    (partitionStep (partitionStep s o) o).sell = (partitionStep s o).sell := by
  cases hp : o.price with
  | none => simp [partitionStep, hp]
  | some v =>
    simp only [partitionStep, hp]
    split_ifs <;> simp [Finset.insert_idem]

/-- C10: the reconciler's output depends only on the current price, the
levels, and the per-side sets of quantized open-order prices: snapshots
with equal partitions give identical output; changing any field other than
side and price of every order changes nothing; and duplicating an order
changes nothing. -/
theorem C10_side_price_only :
    (∀ (p : ℚ) (levels : List ℚ) (o₁ o₂ : List OpenOrder),
      (partitionOpenOrders o₁).buy = (partitionOpenOrders o₂).buy →
      (partitionOpenOrders o₁).sell = (partitionOpenOrders o₂).sell →
      reconcileOrders p levels o₁ = reconcileOrders p levels o₂) ∧
    (∀ (p : ℚ) (levels : List ℚ) (orders : List OpenOrder)
      (g : OpenOrder → OpenOrder),
      (∀ o, (g o).side = o.side ∧ (g o).price = o.price) →
      reconcileOrders p levels (orders.map g) =
        reconcileOrders p levels orders) ∧
    (∀ (p : ℚ) (levels : List ℚ) (o : OpenOrder) (rest : List OpenOrder),
      reconcileOrders p levels (o :: o :: rest) =
        reconcileOrders p levels (o :: rest)) := by
  refine ⟨?_, ?_, ?_⟩
  · intro p levels o₁ o₂ hb hs
    simp only [reconcileOrders]
    rw [hb, hs]
  · intro p levels orders g hg
    have h := partitionFold_proj_map hg orders ⟨∅, ∅, []⟩ ⟨∅, ∅, []⟩ rfl rfl
    simp only [reconcileOrders, partitionOpenOrders]
    rw [h.1, h.2]
  · intro p levels o rest
    have hidem := partitionStep_idem_proj ⟨∅, ∅, []⟩ o
    have h := partitionFold_proj rest _ _ hidem.1 hidem.2
    simp only [reconcileOrders, partitionOpenOrders, List.foldl_cons]
    rw [h.1, h.2]

theorem C10_witness :
    reconcileOrders (65/100) [60/100]
        ([({ orderId := 1, side := "BUY", price := some (62/100),
             origQty := 10, status := "NEW" } : OpenOrder)].map
          fun o => { o with orderId := o.orderId + 7 }) =
      reconcileOrders (65/100) [60/100]
        [({ orderId := 1, side := "BUY", price := some (62/100),
            origQty := 10, status := "NEW" } : OpenOrder)] :=
  C10_side_price_only.2.1 (65/100) [60/100] _ _ fun _ => ⟨rfl, rfl⟩

theorem C5_witness :
    (raw_levels (6/10) 2 3)[3]? = some ((6/10) * 2 ^ 3) :=
  (C5_raw_levels_geometric (6/10) 2 3).2.1 3 (by norm_num)
